import Mathlib

/-!
Verification of the tuned-viewer profile engine.

This development gives a shallow embedding of the core of the
`tuned_viewer` Python package: the document model (`parser.py`),
the include-hierarchy resolver (`resolver.py`) and the profile
merger (`merger.py`).  Python (ordered) dictionaries are modelled
as association lists with Python dict semantics: updating an
existing key keeps its position, inserting a new key appends it
at the end, and `move_to_end(last=False)` moves a key to the front.
-/

namespace TunedViewer

/-- Ordered association list modelling a Python (ordered) dictionary. -/
abbrev AList (α : Type) := List (String × α)

/-- Lookup: Python `d[k]` / `d.get(k)`. -/
def aget {α : Type} : AList α → String → Option α
  | [], _ => none
  | kv :: d, k => if kv.1 = k then some kv.2 else aget d k

/-- Membership: Python `k in d`. -/
def acontains {α : Type} : AList α → String → Bool
  | [], _ => false
  | kv :: d, k => if kv.1 = k then true else acontains d k

/-- Assignment `d[k] = v`: an existing key keeps its position, a new key
is appended at the end. -/
def aset {α : Type} (d : AList α) (k : String) (v : α) : AList α :=
  if acontains d k then d.map (fun kv => if kv.1 = k then (k, v) else kv)
  else d ++ [(k, v)]

/-- Deletion: Python `d.pop(k, None)`. -/
def aremove {α : Type} (d : AList α) (k : String) : AList α :=
  d.filter (fun kv => if kv.1 = k then false else true)

/-- Python `OrderedDict.move_to_end(k, last=False)`: move key `k` to the front. -/
def amoveFront {α : Type} (d : AList α) (k : String) : AList α :=
  match aget d k with
  | some v => (k, v) :: aremove d k
  | none => d

/-- Python `d.update(l)`: assign every entry of `l` into `d`, in order. -/
def aupdate {α : Type} (d l : AList α) : AList α :=
  l.foldl (fun acc kv => aset acc kv.1 kv.2) d

/-- Variable/option dictionaries (string-valued). -/
abbrev Dict := AList String

/-- Python `str.startswith`, expressed on the character data so that it
reduces inside the kernel. -/
def strStartsWith (s p : String) : Bool :=
  p.data.isPrefixOf s.data

/-- Python `str.lower`, expressed on the character data so that it reduces
inside the kernel. -/
def strToLower (s : String) : String :=
  ⟨s.data.map Char.toLower⟩

/-- Case-insensitive truthiness test used throughout the source:
`value.lower() in ('true', '1', 'yes')`. -/
def truthy (s : String) : Bool :=
  strToLower s == "true" || strToLower s == "1" || strToLower s == "yes"

/-- `TunedUnit._parse_priority`: `int(s)` with invalid input mapped to `None`. -/
def parse_priority (s : Option String) : Option Int :=
  match s with
  | none => none
  | some s => s.toInt?

/-- One configuration unit (a section other than `main`/`variables`). -/
structure TunedUnit where
  name : String
  options : Dict
  replace : Bool
  priority : Option Int
  enabled : Bool
  devices : String
deriving DecidableEq, Repr

/-- `TunedUnit.__init__`: the `replace` option is popped from the stored
options and consumed into the boolean flag; `priority`, `enabled`, `devices`
are derived from the remaining options. -/
def mkUnit (name : String) (options : Dict) : TunedUnit :=
  let rest := aremove options "replace"
  { name := name
    options := rest
    replace := truthy ((aget options "replace").getD "")
    priority := parse_priority (aget rest "priority")
    enabled := truthy ((aget rest "enabled").getD "true")
    devices := (aget rest "devices").getD "" }

/-- Unit dictionaries (ordered, keyed by unit name). -/
abbrev Units := AList TunedUnit

/-- One parsed tuned profile (`TunedProfile` in `parser.py`). -/
structure TunedProfile where
  name : String
  vars : Dict
  units : Units
  options : Dict
  includes : List String
deriving DecidableEq, Repr

/-- `TunedProfile.__init__`: a fresh profile with the given name. -/
def mkProfile (name : String) : TunedProfile :=
  ⟨name, [], [], [], []⟩

/-! ## The merger (`merger.py`) -/

/-- The loop body of `ProfileMerger._merge_variables`: a new key is assigned
and then moved to the front; an existing key is updated in place. -/
def merge_var_step (acc : Dict) (kv : String × String) : Dict :=
  if acontains acc kv.1 then aset acc kv.1 kv.2
  else amoveFront (aset acc kv.1 kv.2) kv.1

/-- `ProfileMerger._merge_variables`, as a function of the target's variable
dictionary and the source profile. -/
def merge_variables (tvars : Dict) (source : TunedProfile) : Dict :=
  if source.vars = [] then tvars
  else
    let base :=
      match aget source.units "variables" with
      | some u => if u.replace then ([] : Dict) else tvars
      | none => tvars
    source.vars.foldl merge_var_step base

/-- The option loop body of `ProfileMerger._merge_unit_options`: `script`
keys of a `script` unit were already handled, `drop_X` keys delete option
`X`, everything else is assigned. -/
def merge_opt_step (t : TunedUnit) (kv : String × String) : TunedUnit :=
  if kv.1 = "script" ∧ t.name = "script" then t
  else if strStartsWith kv.1 "drop_" then { t with options := aremove t.options (kv.1.drop 5) }
  else { t with options := aset t.options kv.1 kv.2 }

/-- `ProfileMerger._merge_unit_options`. -/
def merge_unit_options (t0 s : TunedUnit) : TunedUnit :=
  let t1 :=
    if t0.name = "script" ∧ (aget s.options "script").isSome then
      let cat := ((aget t0.options "script").getD "") ++ ((aget s.options "script").getD "")
      { t0 with options := aset t0.options "script" cat }
    else t0
  let t2 := s.options.foldl merge_opt_step t1
  let t3 :=
    match s.priority with
    | some p => { t2 with priority := some p }
    | none => t2
  let t4 :=
    match aget s.options "enabled" with
    | some e => { t3 with enabled := truthy e }
    | none => t3
  match aget s.options "devices" with
  | some dv => { t4 with devices := dv }
  | none => t4

/-- `ProfileMerger._copy_unit`: rebuild through the `TunedUnit` constructor
(which pops `replace`) and then restore the derived fields. -/
def copy_unit (u : TunedUnit) : TunedUnit :=
  let nu := mkUnit u.name u.options
  { nu with replace := u.replace, priority := u.priority,
            enabled := u.enabled, devices := u.devices }

/-- The unit loop body of `ProfileMerger._merge_units`. -/
def merge_unit_step (acc : Units) (kv : String × TunedUnit) : Units :=
  if kv.1 = "variables" then acc
  else if kv.2.replace = true ∨ acontains acc kv.1 = false then
    aset acc kv.1 (copy_unit kv.2)
  else
    match aget acc kv.1 with
    | some tu => aset acc kv.1 (merge_unit_options tu kv.2)
    | none => acc

/-- `ProfileMerger._merge_units`. -/
def merge_units (tunits : Units) (source : TunedProfile) : Units :=
  source.units.foldl merge_unit_step tunits

/-- The initial branch of `ProfileMerger._merge_two`: when the accumulator
has an empty name or is named `base`, start over from a copy of `b`. -/
def copy_profile (b : TunedProfile) : TunedProfile :=
  ⟨b.name, aupdate [] b.vars, aupdate [] b.units, aupdate [] b.options, b.includes⟩

/-- `ProfileMerger._merge_two`. -/
def merge_two (a b : TunedProfile) : TunedProfile :=
  if a.name = "" ∨ a.name = "base" then copy_profile b
  else
    ⟨a.name,
     merge_variables a.vars b,
     merge_units (a.units.foldl (fun acc kv => aset acc kv.1 (copy_unit kv.2)) []) b,
     aupdate a.options b.options,
     a.includes⟩

/-- `ProfileMerger.merge_profiles`: fold `merge_two` over the profiles,
starting from a placeholder named `base`, then force the final name to the
last profile's name. -/
def merge_profiles (profiles : List TunedProfile) : TunedProfile :=
  match profiles with
  | [] => mkProfile "empty"
  | p :: rest =>
    let merged := (p :: rest).foldl merge_two (mkProfile "base")
    { merged with name := ((p :: rest).getLast (List.cons_ne_nil p rest)).name }

/-! ## The resolver (`resolver.py`) -/

/-- Failures of `IncludeResolver` (`CircularIncludeError`,
`ProfileNotFoundError`), plus `fuel` marking exhaustion of the recursion
budget of the shallow embedding (the Python source recurses without bound). -/
inductive ResolveError where
  | circular (cycle : List String)
  | notFound (name : String) (directories : List String)
  | fuel
deriving DecidableEq, Repr

/-- The external collaborators injected into `IncludeResolver`: the profile
locator (`find_profile` plus its search `directories`), the parser
(`parse_file`, total on located paths), and `_parse_external_include`
(`parse_external path profileName`, where `none` models both a missing
external file and a parse failure, which are silently skipped). -/
structure ResolverEnv where
  find_profile : String → Option String
  directories : List String
  parse_file : String → TunedProfile
  parse_external : String → String → Option TunedProfile

/-- One iteration of the include loop of `_resolve_recursive`: an include
starting with `/` is parsed as an optional external file and appended to the
chain; a bare name recurses through `rec`.  Errors short-circuit. -/
def resolveStep
    (rec : String → List String → List TunedProfile → List String →
      Except ResolveError (List String × List TunedProfile))
    (env : ResolverEnv) (name : String) (cur : List String)
    (acc : Except ResolveError (List String × List TunedProfile)) (inc : String) :
    Except ResolveError (List String × List TunedProfile) :=
  match acc with
  | .error e => .error e
  | .ok (pr, ch) =>
    if strStartsWith inc "/" then
      match env.parse_external inc name with
      | some ep => .ok (pr, ch ++ [ep])
      | none => .ok (pr, ch)
    else rec inc pr ch cur

/-- `IncludeResolver._resolve_recursive`, with the mutated `processed` set and
`chain` list threaded through the result.  The cycle check reports the
suffix of `include_path` from the first occurrence of `name`, followed by
`name` again. -/
def resolveRec (env : ResolverEnv) (fuel : Nat) (name : String)
    (processed : List String) (chain : List TunedProfile) (path : List String) :
    Except ResolveError (List String × List TunedProfile) :=
  match fuel with
  | 0 => .error .fuel
  | f + 1 =>
    if name ∈ path then
      .error (.circular (path.dropWhile (fun x => x != name) ++ [name]))
    else if name ∈ processed then .ok (processed, chain)
    else
      match env.find_profile name with
      | none => .error (.notFound name env.directories)
      | some fp =>
        let profile := env.parse_file fp
        match profile.includes.foldl
            (resolveStep (fun i pr ch cu => resolveRec env f i pr ch cu) env name (path ++ [name]))
            (.ok (name :: processed, chain)) with
        | .error e => .error e
        | .ok (pr, ch) => .ok (pr, ch ++ [profile])

/-- `IncludeResolver.resolve_hierarchy`: run the recursion from empty state
and return the dependency-ordered chain. -/
def resolve_hierarchy (env : ResolverEnv) (fuel : Nat) (name : String) :
    Except ResolveError (List TunedProfile) :=
  (resolveRec env fuel name [] [] []).map (fun pc => pc.2)

/-! ## Association-list lemmas -/

theorem acontains_false_iff {α : Type} (d : AList α) (k : String) :
    acontains d k = false ↔ ∀ kv ∈ d, kv.1 ≠ k := by
  induction d with
  | nil => simp [acontains]
  | cons kv d ih =>
    by_cases h : kv.1 = k
    · simp [acontains, h]
    · simp only [acontains, h, if_false, List.mem_cons]
      constructor
      · intro h' kv' hkv'
        rcases hkv' with rfl | hkv'
        · exact h
        · exact (ih.mp h') kv' hkv'
      · intro h'
        exact ih.mpr (fun kv' hkv' => h' kv' (Or.inr hkv'))

theorem aget_of_not_contains {α : Type} {d : AList α} {k : String}
    (h : acontains d k = false) : aget d k = none := by
  induction d with
  | nil => rfl
  | cons kv d ih =>
    by_cases hk : kv.1 = k
    · simp [acontains, hk] at h
    · simp only [acontains, hk, if_false] at h
      simp only [aget, hk, if_false]
      exact ih h

theorem aget_append {α : Type} (d e : AList α) (k : String) :
    aget (d ++ e) k = match aget d k with
      | some v => some v
      | none => aget e k := by
  induction d with
  | nil => simp [aget]
  | cons kv d ih =>
    by_cases hk : kv.1 = k <;> simp [aget, hk, ih]

theorem acontains_append {α : Type} (d e : AList α) (k : String) :
    acontains (d ++ e) k = (acontains d k || acontains e k) := by
  induction d with
  | nil => simp [acontains]
  | cons kv d ih =>
    by_cases hk : kv.1 = k <;> simp [acontains, hk, ih]

theorem aget_map_update_ne {α : Type} (d : AList α) {k k' : String} (v : α)
    (h : k' ≠ k) :
    aget (d.map (fun kv => if kv.1 = k' then (k', v) else kv)) k = aget d k := by
  induction d with
  | nil => rfl
  | cons kv d ih =>
    by_cases hk : kv.1 = k'
    · have hkk : ¬ kv.1 = k := by rw [hk]; exact h
      simp only [List.map_cons, hk, if_true]
      simp only [aget, h, if_false, hkk, ih]
    · simp only [List.map_cons, hk, if_false]
      by_cases hk2 : kv.1 = k <;> simp [aget, hk2, ih]

theorem acontains_map_update {α : Type} (d : AList α) (k k' : String) (v : α) :
    acontains (d.map (fun kv => if kv.1 = k' then (k', v) else kv)) k
      = acontains d k := by
  induction d with
  | nil => rfl
  | cons kv d ih =>
    by_cases hk : kv.1 = k'
    · by_cases hk2 : kv.1 = k
      · simp [acontains, hk, hk2, hk ▸ hk2]
      · simp [acontains, hk, hk2, hk ▸ hk2, ih]
    · by_cases hk2 : kv.1 = k
      · have hne : ¬ k = k' := by rw [← hk2]; exact hk
        simp [acontains, hk, hk2, hne, ih]
      · simp [acontains, hk, hk2, ih]

theorem aget_aset_self {α : Type} (d : AList α) (k : String) (v : α) :
    aget (aset d k v) k = some v := by
  by_cases h : acontains d k
  · simp only [aset, h, if_true]
    induction d with
    | nil => simp [acontains] at h
    | cons kv d ih =>
      by_cases hk : kv.1 = k
      · simp [aget, hk]
      · simp only [acontains, hk, if_false] at h
        simp only [List.map_cons, hk, if_false, aget]
        exact ih h
  · simp only [Bool.not_eq_true] at h
    simp only [aset, h, Bool.false_eq_true, if_false]
    rw [aget_append, aget_of_not_contains h]
    simp [aget]

theorem aget_aset_ne {α : Type} (d : AList α) {k k' : String} (v : α)
    (h : k' ≠ k) : aget (aset d k' v) k = aget d k := by
  by_cases hc : acontains d k'
  · simp only [aset, hc, if_true]
    exact aget_map_update_ne d v h
  · simp only [Bool.not_eq_true] at hc
    simp only [aset, hc, Bool.false_eq_true, if_false]
    rw [aget_append]
    cases hag : aget d k with
    | some w => rfl
    | none => simp [aget, h]

theorem acontains_aset_ne {α : Type} (d : AList α) {k k' : String} (v : α)
    (h : k' ≠ k) : acontains (aset d k' v) k = acontains d k := by
  by_cases hc : acontains d k'
  · simp only [aset, hc, if_true]
    exact acontains_map_update d k k' v
  · simp only [Bool.not_eq_true] at hc
    simp only [aset, hc, Bool.false_eq_true, if_false]
    rw [acontains_append]
    simp [acontains, h]

theorem keys_aset_of_contains {α : Type} {d : AList α} {k : String} (v : α)
    (h : acontains d k = true) :
    (aset d k v).map Prod.fst = d.map Prod.fst := by
  simp only [aset, h, if_true, List.map_map]
  apply List.map_congr_left
  intro kv _
  by_cases hk : kv.1 = k <;> simp [hk]

theorem acontains_aremove_self {α : Type} (d : AList α) (k : String) :
    acontains (aremove d k) k = false := by
  rw [acontains_false_iff]
  intro kv hkv
  rcases List.mem_filter.mp hkv with ⟨_, hcond⟩
  by_cases hk : kv.1 = k
  · simp [hk] at hcond
  · exact hk

theorem aremove_of_not_contains {α : Type} {d : AList α} {k : String}
    (h : acontains d k = false) : aremove d k = d := by
  rw [acontains_false_iff] at h
  apply List.filter_eq_self.mpr
  intro kv hkv
  simp [h kv hkv]

theorem acontains_aremove_of_not_contains {α : Type} {d : AList α} {k : String}
    (k' : String) (h : acontains d k = false) :
    acontains (aremove d k') k = false := by
  rw [acontains_false_iff] at h ⊢
  intro kv hkv
  exact h kv (List.mem_of_mem_filter hkv)

theorem mem_aset {α : Type} {d : AList α} {k : String} {v : α} {kv : String × α}
    (h : kv ∈ aset d k v) : kv ∈ d ∨ kv = (k, v) := by
  by_cases hc : acontains d k
  · simp only [aset, hc, if_true] at h
    rcases List.mem_map.mp h with ⟨kv', hkv', heq⟩
    by_cases hk : kv'.1 = k
    · right; rw [← heq]; simp [hk]
    · left; rw [← heq]; simpa [hk] using hkv'
  · simp only [Bool.not_eq_true] at hc
    simp only [aset, hc, Bool.false_eq_true, if_false] at h
    rcases List.mem_append.mp h with h | h
    · exact Or.inl h
    · right; simpa using h

theorem mem_aupdate {α : Type} {l : AList α} :
    ∀ {d : AList α} {kv : String × α}, kv ∈ aupdate d l → kv ∈ d ∨ kv ∈ l := by
  induction l with
  | nil => intro d kv h; exact Or.inl h
  | cons kv0 l ih =>
    intro d kv h
    simp only [aupdate, List.foldl_cons] at h
    rcases ih h with h' | h'
    · rcases mem_aset h' with h'' | h''
      · exact Or.inl h''
      · right; simp [h'']
    · right; simp [h']

theorem aget_mem {α : Type} {d : AList α} {k : String} {v : α}
    (h : aget d k = some v) : (k, v) ∈ d := by
  induction d with
  | nil => simp [aget] at h
  | cons kv d ih =>
    by_cases hk : kv.1 = k
    · simp only [aget, hk, if_true, Option.some.injEq] at h
      have hkv : kv = (k, v) := by
        cases kv
        simp only at hk h
        rw [hk, h]
      rw [← hkv]
      exact List.mem_cons_self _ _
    · simp only [aget, hk, if_false] at h
      exact List.mem_cons_of_mem _ (ih h)

/-! ## Concrete profiles used as witnesses and counterexamples -/

def vprof1 : TunedProfile := ⟨"p1", [], [], [], []⟩

def vprof2 : TunedProfile := ⟨"p2", [("x", "2")], [], [], []⟩

def vprof3 : TunedProfile := ⟨"p3", [("x", "3"), ("y", "4")], [], [], []⟩

def varsProfA : TunedProfile := ⟨"p1", [("a", "1")], [], [], []⟩

def varsProfB : TunedProfile :=
  ⟨"p2", [], [("variables", mkUnit "variables" [("replace", "true")])], [], []⟩

def varsProfC : TunedProfile :=
  ⟨"p2", [("x", "2")], [("variables", mkUnit "variables" [("replace", "true")])], [], []⟩

def dropProfA : TunedProfile := ⟨"p1", [], [], [], []⟩

def dropProfB : TunedProfile :=
  ⟨"p2", [], [("net", mkUnit "net" [("drop_sysctl", "1")])], [], []⟩

def dropProfC : TunedProfile :=
  ⟨"p1", [], [("net", mkUnit "net" [("sysctl", "1")])], [], []⟩

def dropProfD : TunedProfile :=
  ⟨"p2", [], [("net", mkUnit "net" [("drop_sysctl", "1")])], [], []⟩

def scrProf1 : TunedProfile :=
  ⟨"p1", [], [("script", mkUnit "script" [("script", "echo A")])], [], []⟩

def scrProf2 : TunedProfile :=
  ⟨"p2", [], [("script", mkUnit "script" [("script", "echo B")])], [], []⟩

/-! ## Merger helper lemmas -/

theorem aset_of_not_contains {α : Type} {d : AList α} {k : String} (v : α)
    (h : acontains d k = false) : aset d k v = d ++ [(k, v)] := by
  simp [aset, h]

theorem merge_var_step_new (acc : Dict) (k v : String)
    (h : acontains acc k = false) : merge_var_step acc (k, v) = (k, v) :: acc := by
  have hg : aget (acc ++ [(k, v)]) k = some v := by
    rw [aget_append, aget_of_not_contains h]
    simp [aget]
  have hr : aremove (acc ++ [(k, v)]) k = acc := by
    have h1 : aremove acc k = acc := aremove_of_not_contains h
    simp only [aremove, List.filter_append] at h1 ⊢
    rw [h1]
    simp [List.filter]
  simp only [merge_var_step, h, Bool.false_eq_true, if_false]
  rw [aset_of_not_contains _ h]
  simp only [amoveFront, hg, hr]

theorem merge_unit_options_options_eq (t0 s : TunedUnit) :
    (merge_unit_options t0 s).options
      = (s.options.foldl merge_opt_step
          (if t0.name = "script" ∧ (aget s.options "script").isSome then
            { t0 with options := aset t0.options "script" (((aget t0.options "script").getD "") ++ ((aget s.options "script").getD "")) }
          else t0)).options := by
  simp only [merge_unit_options]
  split <;> split <;> split <;> rfl

/-! ## Claim C4 -/

/-- C4: in every variable-merge step, a key new to the accumulator is
inserted at the front of the ordered variable mapping, and a key already
present is updated in place without moving any key's position; folding the
variable dictionaries of three profiles carrying nothing, `x=2`, then
`x=3, y=4` yields the ordered variables `y=4, x=3`. -/
theorem merged_variable_order :
    (∀ (acc : Dict) (k v : String), acontains acc k = false →
        merge_var_step acc (k, v) = (k, v) :: acc)
    ∧ (∀ (acc : Dict) (k v : String), acontains acc k = true →
        (merge_var_step acc (k, v)).map Prod.fst = acc.map Prod.fst
        ∧ aget (merge_var_step acc (k, v)) k = some v
        ∧ ∀ k' : String, k' ≠ k → aget (merge_var_step acc (k, v)) k' = aget acc k')
    ∧ (merge_profiles [vprof1, vprof2, vprof3]).vars = [("y", "4"), ("x", "3")] := by
  refine ⟨merge_var_step_new, ?_, by decide⟩
  intro acc k v h
  simp only [merge_var_step, h, if_true]
  exact ⟨keys_aset_of_contains v h, aget_aset_self acc k v,
    fun k' hk' => aget_aset_ne acc v (Ne.symm hk')⟩

/-- Witness for C4: a fresh key lands at the front of a concrete accumulator. -/
theorem merged_variable_order_witness :
    acontains [("a", "1")] "b" = false
    ∧ merge_var_step [("a", "1")] ("b", "2") = [("b", "2"), ("a", "1")] :=
  ⟨by decide, merged_variable_order.1 [("a", "1")] "b" "2" (by decide)⟩

/-! ## Claim C5 -/

/-- C5 counterexample: the incoming profile has a unit literally named
`variables` with `replace = true` but an empty variable dictionary; the
accumulated variables are NOT cleared (the merge keeps `a=1`), because
`_merge_variables` returns before the replace check when the incoming
variables are empty. -/
theorem variables_replace_empty_source_kept :
    aget varsProfB.units "variables" = some (mkUnit "variables" [("replace", "true")])
    ∧ (mkUnit "variables" [("replace", "true")]).replace = true
    ∧ varsProfB.vars = []
    ∧ (merge_profiles [varsProfA, varsProfB]).vars = [("a", "1")]
    ∧ [("a", "1")] ≠ ([] : Dict) :=
  ⟨by decide, by decide, rfl, by decide, by decide⟩

/-- C5 amended: when the incoming document carries a unit literally named
`variables` whose `replace` flag is true, the accumulated variables are
cleared before the incoming entries are applied — but only when the incoming
variable dictionary is nonempty; when it is empty, `_merge_variables` returns
early and the accumulated variables are kept unchanged. -/
theorem variables_replace_clears :
    (∀ (tvars : Dict) (s : TunedProfile) (u : TunedUnit),
        s.vars ≠ [] → aget s.units "variables" = some u → u.replace = true →
        merge_variables tvars s = s.vars.foldl merge_var_step [])
    ∧ (∀ (tvars : Dict) (s : TunedProfile),
        s.vars = [] → merge_variables tvars s = tvars) := by
  constructor
  · intro tvars s u hne hu hr
    simp only [merge_variables, hne, if_false, hu, hr, if_true]
  · intro tvars s h
    simp [merge_variables, h]

/-- Witness for C5 (amended): a concrete nonempty incoming document with a
truthy `variables` unit rebuilds the variables from scratch. -/
theorem variables_replace_clears_witness :
    varsProfC.vars ≠ []
    ∧ aget varsProfC.units "variables" = some (mkUnit "variables" [("replace", "true")])
    ∧ (mkUnit "variables" [("replace", "true")]).replace = true
    ∧ merge_variables [("a", "1")] varsProfC = varsProfC.vars.foldl merge_var_step [] :=
  ⟨by decide, by decide, by decide,
    variables_replace_clears.1 [("a", "1")] varsProfC (mkUnit "variables" [("replace", "true")])
      (by decide) (by decide) (by decide)⟩

/-! ## Claim C6 -/

/-- C6 counterexample: a unit stored through the replace-or-new branch of
`_merge_units` keeps its `drop_` key literally — merging a profile that
introduces a fresh `net` unit holding `drop_sysctl` yields a merged result
whose `net` unit still stores the `drop_sysctl` key. -/
theorem drop_key_stored_through_new_branch :
    (aget (merge_profiles [dropProfA, dropProfB]).units "net").map
      (fun u => acontains u.options "drop_sysctl") = some true := by decide

/-- C6 amended: a `drop_<X>` key acts as a removal directive (deleting `X`
and not being stored) only in the field-merge branch, where the incoming
unit merges into an existing accumulated unit of the same name without
`replace`; concretely `drop_sysctl` merged onto a same-named unit with
`sysctl=1` leaves neither `sysctl` nor `drop_sysctl`.  Units stored through
the replace-or-new branch keep `drop_` keys literally. -/
theorem drop_directive_in_field_merge :
    (∀ (tu : TunedUnit) (sn sdev : String) (sen : Bool) (v : String),
        merge_unit_options tu ⟨sn, [("drop_sysctl", v)], false, none, sen, sdev⟩
          = { tu with options := aremove tu.options "sysctl" })
    ∧ (∀ (tu : TunedUnit) (sn sdev : String) (sen : Bool) (v : String),
        acontains tu.options "drop_sysctl" = false →
        acontains (merge_unit_options tu
            ⟨sn, [("drop_sysctl", v)], false, none, sen, sdev⟩).options "sysctl" = false
        ∧ acontains (merge_unit_options tu
            ⟨sn, [("drop_sysctl", v)], false, none, sen, sdev⟩).options "drop_sysctl" = false)
    ∧ (aget (merge_profiles [dropProfC, dropProfD]).units "net").map
        (fun u => (acontains u.options "sysctl", acontains u.options "drop_sysctl"))
      = some (false, false) := by
  have hgen : ∀ (tu : TunedUnit) (sn sdev : String) (sen : Bool) (v : String),
      merge_unit_options tu ⟨sn, [("drop_sysctl", v)], false, none, sen, sdev⟩
        = { tu with options := aremove tu.options "sysctl" } := by
    intro tu sn sdev sen v
    have hpre : strStartsWith "drop_sysctl" "drop_" = true := by decide
    have hdrop : ("drop_sysctl" : String).drop 5 = "sysctl" := by decide
    have hns : ¬(("drop_sysctl" : String) = "script") := by decide
    have hne2 : ¬(("drop_sysctl" : String) = "enabled") := by decide
    have hne3 : ¬(("drop_sysctl" : String) = "devices") := by decide
    simp [merge_unit_options, merge_opt_step, aget, hpre, hdrop, hns, hne2, hne3]
  refine ⟨hgen, ?_, by decide⟩
  intro tu sn sdev sen v h
  rw [hgen]
  exact ⟨acontains_aremove_self _ _,
    acontains_aremove_of_not_contains _ h⟩

/-- Witness for C6 (amended): the concrete field-merge step removing
`sysctl` from a unit built with `sysctl=1`. -/
theorem drop_directive_in_field_merge_witness :
    acontains (mkUnit "net" [("sysctl", "1")]).options "drop_sysctl" = false
    ∧ acontains (merge_unit_options (mkUnit "net" [("sysctl", "1")])
        ⟨"net", [("drop_sysctl", "9")], false, none, true, ""⟩).options "sysctl" = false
    ∧ acontains (merge_unit_options (mkUnit "net" [("sysctl", "1")])
        ⟨"net", [("drop_sysctl", "9")], false, none, true, ""⟩).options "drop_sysctl" = false :=
  ⟨by decide,
    (drop_directive_in_field_merge.2.1 (mkUnit "net" [("sysctl", "1")]) "net" "" true "9"
      (by decide)).1,
    (drop_directive_in_field_merge.2.1 (mkUnit "net" [("sysctl", "1")]) "net" "" true "9"
      (by decide)).2⟩

/-! ## Claim C7 -/

/-- C7 counterexample: `merge_profiles []` returns a placeholder whose name
is the literal string "empty", so its name is not empty as the claim states. -/
theorem merge_empty_name_not_blank :
    (merge_profiles []).name = "empty" ∧ ¬((merge_profiles []).name = "") :=
  ⟨rfl, by decide⟩

/-- C7 amended: `merge_profiles []` does not fail: it returns the placeholder
document named "empty" whose variables, units, options and includes are all
empty. -/
theorem merge_empty_placeholder :
    merge_profiles [] = ⟨"empty", [], [], [], []⟩ := rfl

/-! ## Claim C8 -/

theorem foldl_opt_step_script (l : Dict) :
    ∀ t : TunedUnit, t.name = "script" →
      (∀ kv ∈ l, strStartsWith kv.1 "drop_" = false) →
      (l.foldl merge_opt_step t).name = "script"
      ∧ aget (l.foldl merge_opt_step t).options "script" = aget t.options "script" := by
  induction l with
  | nil => intro t h _; exact ⟨h, rfl⟩
  | cons kv l ih =>
    intro t hname hnd
    have hstep : (merge_opt_step t kv).name = t.name ∧
        aget (merge_opt_step t kv).options "script" = aget t.options "script" := by
      by_cases h1 : kv.1 = "script"
      · simp [merge_opt_step, h1, hname]
      · have h2 : strStartsWith kv.1 "drop_" = false := hnd kv (by simp)
        simp only [merge_opt_step, h2, Bool.false_eq_true, if_false]
        rw [if_neg (by simp [h1])]
        exact ⟨rfl, aget_aset_ne t.options kv.2 h1⟩
    have ih' := ih (merge_opt_step t kv) (hstep.1.trans hname)
      (fun kv' hkv' => hnd kv' (List.mem_cons_of_mem _ hkv'))
    simp only [List.foldl_cons]
    exact ⟨ih'.1, ih'.2.trans hstep.2⟩

/-- C8: when the accumulated unit is named `script` and the incoming unit
has a `script` option (and no `drop_` keys interfere), the incoming script
text is concatenated onto the end of the accumulated script text with no
separator; concretely `script=echo A` merged with `script=echo B` yields
`script="echo Aecho B"`. -/
theorem script_concatenation :
    (∀ (tu su : TunedUnit) (s2 : String),
        tu.name = "script" →
        aget su.options "script" = some s2 →
        (∀ kv ∈ su.options, strStartsWith kv.1 "drop_" = false) →
        aget (merge_unit_options tu su).options "script"
          = some (((aget tu.options "script").getD "") ++ s2))
    ∧ (aget (merge_profiles [scrProf1, scrProf2]).units "script").map
        (fun u => aget u.options "script") = some (some "echo Aecho B") := by
  constructor
  · intro tu su s2 hname hs hnd
    rw [merge_unit_options_options_eq]
    rw [if_pos ⟨hname, by rw [hs]; rfl⟩]
    have hfold := foldl_opt_step_script su.options
      { tu with options := aset tu.options "script" (((aget tu.options "script").getD "") ++ ((aget su.options "script").getD "")) }
      hname hnd
    rw [hfold.2]
    rw [aget_aset_self, hs]
    rfl
  · decide

/-- Witness for C8: the general concatenation rule applied at two concrete
script units. -/
theorem script_concatenation_witness :
    aget (merge_unit_options (mkUnit "script" [("script", "echo A")])
        (mkUnit "script" [("script", "echo B")])).options "script"
      = some "echo Aecho B" := by
  have h := script_concatenation.1 (mkUnit "script" [("script", "echo A")])
    (mkUnit "script" [("script", "echo B")]) "echo B" rfl (by decide) (by decide)
  rw [h]
  rfl

def optProf1 : TunedProfile := ⟨"p1", [], [], [("a", "1")], []⟩

def midBaseProf : TunedProfile := ⟨"base", [], [], [("b", "2")], []⟩

def lastProf : TunedProfile := ⟨"p3", [], [], [], []⟩

def cleanProf1 : TunedProfile :=
  ⟨"c1", [], [("net", mkUnit "net" [("sysctl", "1"), ("replace", "yes")])], [], []⟩

def cleanProf2 : TunedProfile :=
  ⟨"c2", [], [("net", mkUnit "net" [("x", "2")]), ("disk", mkUnit "disk" [("rq", "3")])], [], []⟩

/-! ## Claim C9 -/

/-- Every unit value of an ordered unit dictionary has consumed its
`replace` option: none survives among the stored options. -/
def units_clean (us : Units) : Prop :=
  ∀ kv ∈ us, acontains kv.2.options "replace" = false

/-- All units of a profile have consumed their `replace` option.  Parsed
profiles satisfy this by construction, since every unit is built through
the `TunedUnit` constructor. -/
def profile_clean (p : TunedProfile) : Prop :=
  units_clean p.units

theorem copy_unit_clean (u : TunedUnit) :
    acontains (copy_unit u).options "replace" = false :=
  acontains_aremove_self u.options "replace"

theorem foldl_opt_step_clean (l : Dict) :
    ∀ t : TunedUnit, (∀ kv ∈ l, kv.1 ≠ "replace") →
      acontains t.options "replace" = false →
      acontains ((l.foldl merge_opt_step t)).options "replace" = false := by
  induction l with
  | nil => intro t _ ht; exact ht
  | cons kv l ih =>
    intro t hl ht
    have hstep : acontains (merge_opt_step t kv).options "replace" = false := by
      by_cases h1 : kv.1 = "script" ∧ t.name = "script"
      · simpa [merge_opt_step, h1] using ht
      · by_cases h2 : strStartsWith kv.1 "drop_" = true
        · simp only [merge_opt_step, h1, if_false, h2, if_true]
          exact acontains_aremove_of_not_contains _ ht
        · simp only [Bool.not_eq_true] at h2
          simp only [merge_opt_step, h1, if_false, h2, Bool.false_eq_true]
          exact (acontains_aset_ne t.options kv.2 (hl kv (by simp))).trans ht
    simp only [List.foldl_cons]
    exact ih (merge_opt_step t kv) (fun kv' hkv' => hl kv' (List.mem_cons_of_mem _ hkv')) hstep

theorem merge_unit_options_clean (t s : TunedUnit)
    (ht : acontains t.options "replace" = false)
    (hs : acontains s.options "replace" = false) :
    acontains (merge_unit_options t s).options "replace" = false := by
  rw [merge_unit_options_options_eq]
  have hmem : ∀ kv ∈ s.options, kv.1 ≠ "replace" := (acontains_false_iff _ _).mp hs
  apply foldl_opt_step_clean _ _ hmem
  by_cases h : t.name = "script" ∧ (aget s.options "script").isSome
  · rw [if_pos h]
    have : ("script" : String) ≠ "replace" := by decide
    exact (acontains_aset_ne t.options _ this).trans ht
  · rw [if_neg h]
    exact ht

theorem merge_unit_step_clean (acc : Units) (kv : String × TunedUnit)
    (hacc : units_clean acc) (hkv : acontains kv.2.options "replace" = false) :
    units_clean (merge_unit_step acc kv) := by
  by_cases h1 : kv.1 = "variables"
  · simpa [merge_unit_step, h1] using hacc
  · by_cases h2 : kv.2.replace = true ∨ acontains acc kv.1 = false
    · simp only [merge_unit_step, h1, if_false, h2, if_true]
      intro kv' hkv'
      rcases mem_aset hkv' with h | h
      · exact hacc kv' h
      · rw [h]; exact copy_unit_clean _
    · simp only [merge_unit_step, h1, if_false, h2, if_false]
      cases hg : aget acc kv.1 with
      | none => exact hacc
      | some tu =>
        intro kv' hkv'
        rcases mem_aset hkv' with h | h
        · exact hacc kv' h
        · rw [h]
          exact merge_unit_options_clean tu kv.2 (hacc (kv.1, tu) (aget_mem hg)) hkv

theorem foldl_unit_step_clean (l : List (String × TunedUnit)) :
    ∀ acc : Units, units_clean acc →
      (∀ kv ∈ l, acontains kv.2.options "replace" = false) →
      units_clean (l.foldl merge_unit_step acc) := by
  induction l with
  | nil => intro acc hacc _; exact hacc
  | cons kv l ih =>
    intro acc hacc hl
    simp only [List.foldl_cons]
    exact ih (merge_unit_step acc kv)
      (merge_unit_step_clean acc kv hacc (hl kv (by simp)))
      (fun kv' hkv' => hl kv' (List.mem_cons_of_mem _ hkv'))

theorem foldl_copy_clean (l : List (String × TunedUnit)) :
    ∀ acc : Units, units_clean acc →
      units_clean (l.foldl (fun acc kv => aset acc kv.1 (copy_unit kv.2)) acc) := by
  induction l with
  | nil => intro acc hacc; exact hacc
  | cons kv l ih =>
    intro acc hacc
    simp only [List.foldl_cons]
    apply ih
    intro kv' hkv'
    rcases mem_aset hkv' with h | h
    · exact hacc kv' h
    · rw [h]; exact copy_unit_clean _

theorem merge_two_clean (a b : TunedProfile)
    (_ha : profile_clean a) (hb : profile_clean b) :
    profile_clean (merge_two a b) := by
  by_cases h : a.name = "" ∨ a.name = "base"
  · simp only [profile_clean, merge_two, h, if_true, copy_profile]
    intro kv hkv
    rcases mem_aupdate hkv with h' | h'
    · simp at h'
    · exact hb kv h'
  · simp only [profile_clean, merge_two, h, if_false]
    exact foldl_unit_step_clean b.units _
      (foldl_copy_clean a.units [] (by intro kv hkv; simp at hkv)) hb

theorem foldl_merge_two_clean (l : List TunedProfile) :
    ∀ acc : TunedProfile, profile_clean acc →
      (∀ p ∈ l, profile_clean p) →
      profile_clean (l.foldl merge_two acc) := by
  induction l with
  | nil => intro acc hacc _; exact hacc
  | cons p l ih =>
    intro acc hacc hl
    simp only [List.foldl_cons]
    exact ih (merge_two acc p) (merge_two_clean acc p hacc (hl p (by simp)))
      (fun p' hp' => hl p' (List.mem_cons_of_mem _ hp'))

/-- C9: the `replace` flag of a constructed unit is derived from the option
literally named `replace` — true exactly when its lowercased value is
`true`, `1` or `yes` — and the `replace` key is removed from the stored
options at construction; moreover, merging any sequence of profiles whose
units were all built through the constructor yields a result in which no
unit stores a `replace` key. -/
theorem replace_flag_consumption :
    (∀ (n : String) (opts : Dict),
        (mkUnit n opts).replace = truthy ((aget opts "replace").getD ""))
    ∧ (∀ s : String, truthy s = true ↔
        strToLower s = "true" ∨ strToLower s = "1" ∨ strToLower s = "yes")
    ∧ (∀ (n : String) (opts : Dict),
        acontains (mkUnit n opts).options "replace" = false)
    ∧ (∀ ps : List TunedProfile, (∀ p ∈ ps, profile_clean p) →
        profile_clean (merge_profiles ps)) := by
  refine ⟨fun n opts => rfl, ?_, fun n opts => acontains_aremove_self _ _, ?_⟩
  · intro s
    simp [truthy, Bool.or_eq_true, beq_iff_eq, or_assoc]
  · intro ps hps
    cases ps with
    | nil =>
      intro kv hkv
      simp [merge_profiles, mkProfile] at hkv
    | cons p rest =>
      have h := foldl_merge_two_clean (p :: rest) (mkProfile "base")
        (by intro kv hkv; simp [mkProfile] at hkv) hps
      intro kv hkv
      exact h kv hkv

/-- Witness for C9 at a concrete profile list. -/
theorem replace_flag_consumption_witness :
    (∀ p ∈ [cleanProf1, cleanProf2], profile_clean p)
    ∧ profile_clean (merge_profiles [cleanProf1, cleanProf2]) := by
  have h : ∀ p ∈ [cleanProf1, cleanProf2], profile_clean p := by
    simp only [profile_clean, units_clean, List.mem_cons, List.not_mem_nil, or_false]
    intro p hp
    rcases hp with rfl | rfl
    · decide
    · decide
  exact ⟨h, replace_flag_consumption.2.2.2 [cleanProf1, cleanProf2] h⟩

/-! ## Claim C10 -/

/-- C10 counterexample: a document named `base` in the middle of the input
sequence does not restart the fold — the contributions of the first profile
(`a=1`) and of the `base`-named profile itself (`b=2`) both survive into the
final result even though the last profile re-contributes nothing. -/
theorem base_mid_sequence_not_discarded :
    midBaseProf.name = "base"
    ∧ aget (merge_profiles [optProf1, midBaseProf, lastProf]).options "a" = some "1"
    ∧ aget (merge_profiles [optProf1, midBaseProf, lastProf]).options "b" = some "2" :=
  ⟨rfl, by decide, by decide⟩

/-- C10 amended: the accumulator-restart branch of `_merge_two` fires only
while the accumulator is still named `base` or has an empty name, which
happens exactly for the leading run of input documents named `base` or
empty-named: such a leading document is discarded entirely (merging `d ::
rest` equals merging `rest`), while once the accumulator carries an ordinary
name, that name is preserved and later `base`/empty-named inputs are merged
normally rather than restarting the fold. -/
theorem leading_base_profile_discarded :
    (∀ (d r : TunedProfile) (rest : List TunedProfile),
        d.name = "base" ∨ d.name = "" →
        merge_profiles (d :: r :: rest) = merge_profiles (r :: rest))
    ∧ (∀ a b : TunedProfile, a.name ≠ "" → a.name ≠ "base" →
        (merge_two a b).name = a.name) := by
  constructor
  · intro d r rest hd
    have h1 : merge_two (mkProfile "base") d = copy_profile d := by
      simp [merge_two, mkProfile]
    have h2 : merge_two (copy_profile d) r = copy_profile r := by
      rcases hd with hd | hd <;> simp [merge_two, copy_profile, hd]
    have h3 : merge_two (mkProfile "base") r = copy_profile r := by
      simp [merge_two, mkProfile]
    simp only [merge_profiles, List.foldl_cons, h1, h2, h3]
    rw [List.getLast_cons (List.cons_ne_nil r rest)]
  · intro a b ha hb
    simp [merge_two, ha, hb]

/-- Witness for C10 (amended): a concrete leading `base`-named profile is
discarded from the merge. -/
theorem leading_base_profile_discarded_witness :
    midBaseProf.name = "base"
    ∧ merge_profiles [midBaseProf, optProf1] = merge_profiles [optProf1] :=
  ⟨rfl, leading_base_profile_discarded.1 midBaseProf optProf1 [] (Or.inl rfl)⟩

/-! ## Claim C2 -/

theorem dropWhile_bne_head (path : List String) (name : String)
    (h : name ∈ path) :
    (path.dropWhile (fun x => x != name)).head? = some name := by
  induction path with
  | nil => simp at h
  | cons a path ih =>
    by_cases ha : a = name
    · subst ha
      simp [List.dropWhile_cons, bne_self_eq_false]
    · have hm : name ∈ path := by
        rcases List.mem_cons.mp h with h' | h'
        · exact absurd h'.symm ha
        · exact h'
      have hb : (a != name) = true := by simp [bne, ha]
      simp only [List.dropWhile_cons, hb, if_true]
      exact ih hm

/-- C2: whenever the depth-first walk reaches a name that is already on the
active expansion path, it raises `CircularInclude` reporting, as the cycle,
the suffix of the path from that name's first occurrence followed by the
name again — a sequence that starts and ends with the repeated name.  In
particular a direct self-include raises with cycle `[a, a]` and an indirect
two-profile cycle raises with cycle `[a, b, a]`. -/
theorem circular_include_detection :
    (∀ (env : ResolverEnv) (fuel : Nat) (name : String)
        (processed : List String) (chain : List TunedProfile) (path : List String),
        name ∈ path →
        resolveRec env (fuel + 1) name processed chain path
          = .error (.circular (path.dropWhile (fun x => x != name) ++ [name]))
        ∧ (path.dropWhile (fun x => x != name) ++ [name]).head? = some name
        ∧ (path.dropWhile (fun x => x != name) ++ [name]).getLast? = some name)
    ∧ (∀ (env : ResolverEnv) (a fp : String) (fuel : Nat),
        env.find_profile a = some fp →
        (env.parse_file fp).includes = [a] →
        strStartsWith a "/" = false →
        resolve_hierarchy env (fuel + 2) a = .error (.circular [a, a]))
    ∧ (∀ (env : ResolverEnv) (a b fpa fpb : String) (fuel : Nat),
        a ≠ b →
        env.find_profile a = some fpa →
        (env.parse_file fpa).includes = [b] →
        env.find_profile b = some fpb →
        (env.parse_file fpb).includes = [a] →
        strStartsWith a "/" = false →
        strStartsWith b "/" = false →
        resolve_hierarchy env (fuel + 3) a = .error (.circular [a, b, a])) := by
  refine ⟨?_, ?_, ?_⟩
  · intro env fuel name processed chain path h
    refine ⟨?_, ?_, List.getLast?_concat _⟩
    · simp only [resolveRec]
      rw [if_pos h]
    · rcases hd : (path.dropWhile (fun x => x != name)) with _ | ⟨x, xs⟩
      · have := dropWhile_bne_head path name h
        rw [hd] at this
        simp at this
      · have := dropWhile_bne_head path name h
        rw [hd] at this
        simp only [List.head?] at this
        simp [this]
  · intro env a fp fuel h1 h2 h3
    simp [resolve_hierarchy, resolveRec, resolveStep, h1, h2, h3,
      List.dropWhile_cons, bne_self_eq_false, Except.map]
  · intro env a b fpa fpb fuel hab h1 h2 h3 h4 h5 h6
    have hba : ¬(b = a) := fun hh => hab hh.symm
    have hbne : (b != a) = true := by simp [bne, hba]
    simp [resolve_hierarchy, resolveRec, resolveStep, h1, h2, h3, h4, h5, h6, hba,
      List.dropWhile_cons, bne_self_eq_false, hbne, Except.map]

def envDirectCycle : ResolverEnv :=
  { find_profile := fun n => if n = "a" then some "fa" else none
    directories := ["d1"]
    parse_file := fun _ => ⟨"a", [], [], [], ["a"]⟩
    parse_external := fun _ _ => none }

/-- Witness for C2: the direct self-include raises `CircularInclude` with
cycle `[a, a]` on a concrete environment. -/
theorem circular_include_detection_witness :
    envDirectCycle.find_profile "a" = some "fa"
    ∧ (envDirectCycle.parse_file "fa").includes = ["a"]
    ∧ strStartsWith "a" "/" = false
    ∧ resolve_hierarchy envDirectCycle 2 "a" = .error (.circular ["a", "a"]) :=
  ⟨rfl, rfl, by decide,
    circular_include_detection.2.1 envDirectCycle "a" "fa" 0 rfl rfl (by decide)⟩

/-! ## Claim C3 -/

theorem foldl_resolveStep_error
    (R : String → List String → List TunedProfile → List String →
      Except ResolveError (List String × List TunedProfile))
    (env : ResolverEnv) (name : String) (cur : List String) (l : List String) :
    ∀ acc err, l.foldl (resolveStep R env name cur) acc = .error err →
      acc = .error err ∨ ∃ inc ∈ l, ∃ pr ch, R inc pr ch cur = .error err := by
  induction l with
  | nil => intro acc err h; exact Or.inl h
  | cons inc l ih =>
    intro acc err h
    simp only [List.foldl_cons] at h
    rcases ih _ _ h with h' | h'
    · cases acc with
      | error e =>
        left
        simpa [resolveStep] using h'
      | ok pc =>
        obtain ⟨pr, ch⟩ := pc
        right
        by_cases hext : strStartsWith inc "/" = true
        · simp only [resolveStep, hext, if_true] at h'
          cases henv : env.parse_external inc name <;> rw [henv] at h' <;> simp at h'
        · simp only [Bool.not_eq_true] at hext
          simp only [resolveStep, hext, Bool.false_eq_true, if_false] at h'
          exact ⟨inc, by simp, pr, ch, h'⟩
    · obtain ⟨i, hi, pr, ch, hh⟩ := h'
      exact Or.inr ⟨i, List.mem_cons_of_mem _ hi, pr, ch, hh⟩

theorem resolveRec_notFound_src (env : ResolverEnv) :
    ∀ (fuel : Nat) (name : String) (processed : List String)
      (chain : List TunedProfile) (path : List String) (n : String) (ds : List String),
      resolveRec env fuel name processed chain path = .error (.notFound n ds) →
      env.find_profile n = none ∧ ds = env.directories := by
  intro fuel
  induction fuel with
  | zero =>
    intro name processed chain path n ds h
    simp [resolveRec] at h
  | succ f ih =>
    intro name processed chain path n ds h
    simp only [resolveRec] at h
    by_cases h1 : name ∈ path
    · rw [if_pos h1] at h
      simp at h
    · rw [if_neg h1] at h
      by_cases h2 : name ∈ processed
      · rw [if_pos h2] at h
        simp at h
      · rw [if_neg h2] at h
        split at h
        · rename_i hf
          simp only [Except.error.injEq, ResolveError.notFound.injEq] at h
          obtain ⟨rfl, rfl⟩ := h
          exact ⟨hf, rfl⟩
        · rename_i fp hf
          split at h
          · rename_i e hfold
            simp only [Except.error.injEq] at h
            subst h
            rcases foldl_resolveStep_error _ env name (path ++ [name]) _ _ _ hfold with h' | h'
            · simp at h'
            · obtain ⟨i, _, pr, ch, hh⟩ := h'
              exact ih i pr ch (path ++ [name]) n ds hh
          · simp at h

/-- C3: a bare dependency name that the locator cannot find aborts the walk
with `ProfileNotFound` carrying that name and the locator's search
directories (first conjunct: any call of the walk on an unprocessed,
unlocatable name fails this way); and every `ProfileNotFound` failure of
`resolve_hierarchy` carries a genuinely unlocatable name together with the
locator's directories (second conjunct).  Since the resolver returns an
`Except`, an error means the resolution aborts with no partial chain. -/
theorem profile_not_found_aborts :
    (∀ (env : ResolverEnv) (fuel : Nat) (name : String)
        (processed : List String) (chain : List TunedProfile) (path : List String),
        0 < fuel → name ∉ path → name ∉ processed →
        env.find_profile name = none →
        resolveRec env fuel name processed chain path
          = .error (.notFound name env.directories))
    ∧ (∀ (env : ResolverEnv) (fuel : Nat) (name n : String) (ds : List String),
        resolve_hierarchy env fuel name = .error (.notFound n ds) →
        env.find_profile n = none ∧ ds = env.directories) := by
  constructor
  · intro env fuel name processed chain path hfuel h1 h2 h3
    cases fuel with
    | zero => exact absurd hfuel (by simp)
    | succ f =>
      simp only [resolveRec]
      rw [if_neg h1, if_neg h2, h3]
  · intro env fuel name n ds h
    cases hrec : resolveRec env fuel name [] [] [] with
    | error e =>
      simp only [resolve_hierarchy, hrec, Except.map] at h
      simp only [Except.error.injEq] at h
      subst h
      exact resolveRec_notFound_src env fuel name [] [] [] n ds hrec
    | ok pc =>
      simp [resolve_hierarchy, hrec, Except.map] at h

def envAllMissing : ResolverEnv :=
  { find_profile := fun _ => none
    directories := ["d1", "d2"]
    parse_file := fun _ => mkProfile "x"
    parse_external := fun _ _ => none }

/-- Witness for C3: a concrete unlocatable name fails with `ProfileNotFound`
carrying the name and both search directories. -/
theorem profile_not_found_aborts_witness :
    (0 : Nat) < 1 ∧ envAllMissing.find_profile "nope" = none
    ∧ resolveRec envAllMissing 1 "nope" [] [] []
        = .error (.notFound "nope" ["d1", "d2"]) :=
  ⟨by decide, rfl,
    profile_not_found_aborts.1 envAllMissing 1 "nope" [] [] [] (by decide)
      (by simp) (by simp) rfl⟩

/-! ## Claim C1 -/

/-- The names of the profiles on a chain, in order. -/
def chainNames (ch : List TunedProfile) : List String :=
  ch.map TunedProfile.name

/-- Every include of every profile on the chain names a profile that appears
strictly earlier on the chain. -/
def orderedChain (ch : List TunedProfile) : Prop :=
  ∀ pre p suf, ch = pre ++ p :: suf → ∀ m ∈ p.includes, m ∈ chainNames pre

/-- Invariant tying the resolver's `processed` set, the active expansion
`path` and the output chain together during the depth-first walk. -/
structure GoodState (processed path : List String) (chain : List TunedProfile) : Prop where
  nodup : (chainNames chain).Nodup
  mem_eq : ∀ x, x ∈ processed ↔ x ∈ chainNames chain ∨ x ∈ path
  ordered : orderedChain chain

/-- Hypotheses describing an acyclic include graph presented through the
injected locator: no external includes, every include of a located profile is
itself locatable, parsing a located profile yields a document carrying the
requested name, and a rank function decreases along includes (acyclicity). -/
structure GoodEnv (env : ResolverEnv) (rank : String → Nat) : Prop where
  no_ext : ∀ n fp, env.find_profile n = some fp →
    ∀ m ∈ (env.parse_file fp).includes, strStartsWith m "/" = false
  located : ∀ n fp, env.find_profile n = some fp →
    ∀ m ∈ (env.parse_file fp).includes, (env.find_profile m).isSome
  coherent : ∀ n fp, env.find_profile n = some fp → (env.parse_file fp).name = n
  acyclic : ∀ n fp, env.find_profile n = some fp →
    ∀ m ∈ (env.parse_file fp).includes, rank m < rank n

theorem chainNames_append (a b : List TunedProfile) :
    chainNames (a ++ b) = chainNames a ++ chainNames b :=
  List.map_append _ a b

theorem orderedChain_nil : orderedChain [] := by
  intro pre p suf h
  simp at h

theorem orderedChain_append_singleton (ch : List TunedProfile) (q : TunedProfile)
    (hord : orderedChain ch) (hq : ∀ m ∈ q.includes, m ∈ chainNames ch) :
    orderedChain (ch ++ [q]) := by
  intro pre p suf heq m hm
  rcases List.eq_nil_or_concat suf with rfl | ⟨suf', lastEl, rfl⟩
  · obtain ⟨h1, h2⟩ := List.append_inj' heq (by simp)
    have hpq : q = p := by simpa using h2
    subst h1
    exact hq m (hpq ▸ hm)
  · have heq' : ch ++ [q] = (pre ++ p :: suf') ++ [lastEl] := by
      rw [heq, List.concat_eq_append]
      simp
    obtain ⟨h1, _⟩ := List.append_inj' heq' (by simp)
    exact hord pre p suf' h1 m hm

/-- Specification of the include loop of `_resolve_recursive`: if every
recursive call behaves like a correct resolver (hypothesis `hR`), the fold
over the include list succeeds, extends the chain, preserves the state
invariant, and ends with every include present on the chain. -/
theorem resolveFold_spec (env : ResolverEnv) (rank : String → Nat)
    (R : String → List String → List TunedProfile → List String →
        Except ResolveError (List String × List TunedProfile))
    (Ok : String → Prop)
    (hR : ∀ nm pr ch cur, Ok nm →
        ((env.find_profile nm).isSome ∨ nm ∈ pr) →
        (∀ x ∈ cur, rank nm < rank x) →
        GoodState pr cur ch →
        ∃ pr' ch', R nm pr ch cur = .ok (pr', ch')
          ∧ (∃ t, ch' = ch ++ t)
          ∧ (∀ x ∈ pr, x ∈ pr')
          ∧ GoodState pr' cur ch'
          ∧ nm ∈ chainNames ch'
          ∧ (∀ x ∈ chainNames ch', x ∉ chainNames ch → x ∉ cur)) :
    ∀ (incs : List String) (name : String) (cur : List String)
      (processed : List String) (chain : List TunedProfile),
      (∀ m ∈ incs, strStartsWith m "/" = false) →
      (∀ m ∈ incs, (env.find_profile m).isSome) →
      (∀ m ∈ incs, ∀ x ∈ cur, rank m < rank x) →
      (∀ m ∈ incs, Ok m) →
      GoodState processed cur chain →
      ∃ pr' ch',
        incs.foldl (resolveStep R env name cur) (.ok (processed, chain)) = .ok (pr', ch')
        ∧ (∃ t, ch' = chain ++ t)
        ∧ (∀ x ∈ processed, x ∈ pr')
        ∧ GoodState pr' cur ch'
        ∧ (∀ m ∈ incs, m ∈ chainNames ch')
        ∧ (∀ x ∈ chainNames ch', x ∉ chainNames chain → x ∉ cur) := by
  intro incs
  induction incs with
  | nil =>
    intro name cur processed chain _ _ _ _ hst
    exact ⟨processed, chain, rfl, ⟨[], by simp⟩, fun x hx => hx, hst, by simp,
      fun x hx hnx => absurd hx hnx⟩
  | cons inc incs ih =>
    intro name cur processed chain hext hloc hrk hok hst
    simp only [List.foldl_cons]
    have hstep : resolveStep R env name cur (.ok (processed, chain)) inc
        = R inc processed chain cur := by
      simp [resolveStep, hext inc (by simp)]
    rw [hstep]
    obtain ⟨pr1, ch1, hR1, ⟨t1, ht1⟩, hmono1, hst1, hmem1, hnew1⟩ :=
      hR inc processed chain cur (hok inc (by simp)) (Or.inl (hloc inc (by simp)))
        (hrk inc (by simp)) hst
    rw [hR1]
    obtain ⟨pr2, ch2, hfold, ⟨t2, ht2⟩, hmono2, hst2, hmem2, hnew2⟩ :=
      ih name cur pr1 ch1 (fun m hm => hext m (by simp [hm]))
        (fun m hm => hloc m (by simp [hm]))
        (fun m hm => hrk m (by simp [hm])) (fun m hm => hok m (by simp [hm])) hst1
    refine ⟨pr2, ch2, hfold, ⟨t1 ++ t2, by rw [ht2, ht1, List.append_assoc]⟩,
      fun x hx => hmono2 x (hmono1 x hx), hst2, ?_, ?_⟩
    · intro m hm
      rcases List.mem_cons.mp hm with rfl | hm
      · rw [ht2, chainNames_append]
        exact List.mem_append_left _ hmem1
      · exact hmem2 m hm
    · intro x hx hnx
      by_cases hx1 : x ∈ chainNames ch1
      · exact hnew1 x hx1 hnx
      · exact hnew2 x hx hx1

/-- Main specification of `_resolve_recursive` on an acyclic graph: given
enough fuel, the call succeeds, extends the chain by the yet-unresolved
dependency closure of `name`, and preserves the state invariant; on a fresh
name the resolved profile itself ends up last on the chain. -/
theorem resolveRec_spec (env : ResolverEnv) (rank : String → Nat)
    (he : GoodEnv env rank) :
    ∀ (fuel : Nat) (name : String) (processed : List String)
      (chain : List TunedProfile) (path : List String),
      rank name < fuel →
      ((env.find_profile name).isSome ∨ name ∈ processed) →
      (∀ x ∈ path, rank name < rank x) →
      GoodState processed path chain →
      ∃ pr' ch', resolveRec env fuel name processed chain path = .ok (pr', ch')
        ∧ (∃ t, ch' = chain ++ t)
        ∧ (∀ x ∈ processed, x ∈ pr')
        ∧ GoodState pr' path ch'
        ∧ name ∈ chainNames ch'
        ∧ (∀ x ∈ chainNames ch', x ∉ chainNames chain → x ∉ path)
        ∧ (name ∉ processed → (ch'.getLast?).map TunedProfile.name = some name) := by
  intro fuel
  induction fuel with
  | zero =>
    intro name _ _ _ hf
    exact absurd hf (Nat.not_lt_zero _)
  | succ f ih =>
    intro name processed chain path hf hfind hpath hst
    have hnp : name ∉ path := fun hmem => lt_irrefl _ (hpath name hmem)
    simp only [resolveRec]
    rw [if_neg hnp]
    by_cases hproc : name ∈ processed
    · rw [if_pos hproc]
      have hname_chain : name ∈ chainNames chain := by
        rcases (hst.mem_eq name).mp hproc with h | h
        · exact h
        · exact absurd h hnp
      exact ⟨processed, chain, rfl, ⟨[], by simp⟩, fun x hx => hx, hst, hname_chain,
        fun x hx hnx => absurd hx hnx, fun h => absurd hproc h⟩
    · rw [if_neg hproc]
      rcases hfind with hfind | hfind
      · obtain ⟨fp, hfp⟩ := Option.isSome_iff_exists.mp hfind
        simp only [hfp]
        have hstate1 : GoodState (name :: processed) (path ++ [name]) chain := by
          refine ⟨hst.nodup, ?_, hst.ordered⟩
          intro x
          constructor
          · intro hx
            rcases List.mem_cons.mp hx with rfl | hx
            · right
              simp
            · rcases (hst.mem_eq x).mp hx with h | h
              · exact Or.inl h
              · right
                simp [h]
          · intro hx
            rcases hx with hx | hx
            · exact List.mem_cons_of_mem _ ((hst.mem_eq x).mpr (Or.inl hx))
            · rcases List.mem_append.mp hx with hx | hx
              · exact List.mem_cons_of_mem _ ((hst.mem_eq x).mpr (Or.inr hx))
              · simp at hx
                simp [hx]
        have hR : ∀ nm pr ch cur, rank nm < f →
            ((env.find_profile nm).isSome ∨ nm ∈ pr) →
            (∀ x ∈ cur, rank nm < rank x) →
            GoodState pr cur ch →
            ∃ pr' ch', resolveRec env f nm pr ch cur = .ok (pr', ch')
              ∧ (∃ t, ch' = ch ++ t)
              ∧ (∀ x ∈ pr, x ∈ pr')
              ∧ GoodState pr' cur ch'
              ∧ nm ∈ chainNames ch'
              ∧ (∀ x ∈ chainNames ch', x ∉ chainNames ch → x ∉ cur) := by
          intro nm pr ch cur hoknm hfindnm hranknm hstnm
          obtain ⟨pr', ch', a1, a2, a3, a4, a5, a6, _⟩ :=
            ih nm pr ch cur hoknm hfindnm hranknm hstnm
          exact ⟨pr', ch', a1, a2, a3, a4, a5, a6⟩
        obtain ⟨pr1, ch1, hfold, ⟨t1, ht1⟩, hmono1, hst1, hmems, hnew1⟩ :=
          resolveFold_spec env rank (fun i pr ch cu => resolveRec env f i pr ch cu)
            (fun nm => rank nm < f) hR
            (env.parse_file fp).includes name (path ++ [name]) (name :: processed) chain
            (he.no_ext name fp hfp)
            (he.located name fp hfp)
            (fun m hm x hx => by
              rcases List.mem_append.mp hx with hx | hx
              · exact lt_trans (he.acyclic name fp hfp m hm) (hpath x hx)
              · simp at hx
                rw [hx]
                exact he.acyclic name fp hfp m hm)
            (fun m hm => lt_of_lt_of_le (he.acyclic name fp hfp m hm)
              (Nat.lt_succ_iff.mp hf))
            hstate1
        simp only [hfold]
        have hnamecoh : (env.parse_file fp).name = name := he.coherent name fp hfp
        have hch1names : chainNames (ch1 ++ [env.parse_file fp])
            = chainNames ch1 ++ [name] := by
          rw [chainNames_append]
          simp [chainNames, hnamecoh]
        have hname_not_ch1 : name ∉ chainNames ch1 := by
          intro hmem
          by_cases hchain : name ∈ chainNames chain
          · exact hproc ((hst.mem_eq name).mpr (Or.inl hchain))
          · exact (hnew1 name hmem hchain) (by simp)
        refine ⟨pr1, ch1 ++ [env.parse_file fp], rfl,
          ⟨t1 ++ [env.parse_file fp], by rw [ht1, List.append_assoc]⟩,
          fun x hx => hmono1 x (List.mem_cons_of_mem _ hx), ?_, ?_, ?_, ?_⟩
        · refine ⟨?_, ?_, ?_⟩
          · rw [hch1names]
            rw [List.nodup_append]
            exact ⟨hst1.nodup, List.nodup_singleton _,
              fun x hx hx1 => by
                simp at hx1
                subst hx1
                exact hname_not_ch1 hx⟩
          · intro x
            have h1 := hst1.mem_eq x
            rw [hch1names]
            constructor
            · intro hx
              rcases (h1.mp hx) with h | h
              · exact Or.inl (List.mem_append_left _ h)
              · rcases List.mem_append.mp h with h | h
                · exact Or.inr h
                · exact Or.inl (List.mem_append_right _ h)
            · intro hx
              rcases hx with hx | hx
              · rcases List.mem_append.mp hx with h | h
                · exact h1.mpr (Or.inl h)
                · exact h1.mpr (Or.inr (List.mem_append_right _ h))
              · exact h1.mpr (Or.inr (List.mem_append_left _ hx))
          · exact orderedChain_append_singleton ch1 _ hst1.ordered
              (fun m hm => hmems m hm)
        · rw [hch1names]
          exact List.mem_append_right _ (by simp)
        · intro x hx hnx
          rw [hch1names] at hx
          rcases List.mem_append.mp hx with hx | hx
          · intro hxp
            exact (hnew1 x hx hnx) (List.mem_append_left _ hxp)
          · simp at hx
            subst hx
            exact hnp
        · intro _
          rw [List.getLast?_concat]
          simp [hnamecoh]
      · exact absurd hfind hproc

/-- On a chain with pairwise-distinct names satisfying `orderedChain`, a
profile strictly precedes every profile that transitively includes it. -/
theorem orderedChain_transGen_lt (out : List TunedProfile)
    (hnd : (chainNames out).Nodup) (hord : orderedChain out) :
    ∀ i j : Fin out.length,
      Relation.TransGen
        (fun a b : Fin out.length => (out.get a).name ∈ (out.get b).includes) i j →
      i.val < j.val := by
  have hstep : ∀ i j : Fin out.length,
      (out.get i).name ∈ (out.get j).includes → i.val < j.val := by
    intro i j hmem
    have hdecomp : out = out.take j.val ++ out.get j :: out.drop (j.val + 1) := by
      have h2 : out.drop j.val = out[j.val] :: out.drop (j.val + 1) :=
        List.drop_eq_getElem_cons j.isLt
      conv_lhs => rw [← List.take_append_drop j.val out, h2]
      simp [List.get_eq_getElem]
    have hm : (out.get i).name ∈ chainNames (out.take j.val) :=
      hord (out.take j.val) (out.get j) (out.drop (j.val + 1)) hdecomp _ hmem
    simp only [chainNames] at hm
    obtain ⟨p, hp, hpname⟩ := List.mem_map.mp hm
    obtain ⟨i', hi', hpi⟩ := List.mem_iff_getElem.mp hp
    have hlen : (out.take j.val).length = j.val := by
      simp [List.length_take, Nat.min_eq_left (Nat.le_of_lt j.isLt)]
    have hi'j : i' < j.val := hlen ▸ hi'
    have hi'out : i' < out.length := lt_trans hi'j j.isLt
    have heqname : (chainNames out).get ⟨i', by simp [chainNames, hi'out]⟩
        = (chainNames out).get ⟨i.val, by simp [chainNames, i.isLt]⟩ := by
      simp only [chainNames, List.get_eq_getElem, List.getElem_map]
      rw [show out[i'] = p from by rw [← hpi, List.getElem_take]]
      rw [hpname]
      rfl
    have := (hnd.get_inj_iff).mp heqname
    have hii : i' = i.val := by simpa using this
    exact hii ▸ hi'j
  intro i j htg
  induction htg with
  | single h => exact hstep _ _ h
  | tail _ h ih => exact lt_trans ih (hstep _ _ h)

/-- C1: for every acyclic include graph presented through the injected
locator (acyclicity witnessed by a rank function, every include locatable,
no external includes), `resolve_hierarchy` succeeds given enough fuel and
returns a chain in which profile names are pairwise distinct (each profile
appears exactly once), every include of every profile appears strictly
earlier (hence every profile precedes all profiles that transitively
include it), and the requested root is the last element. -/
theorem resolve_hierarchy_topological
    (env : ResolverEnv) (rank : String → Nat) (root : String) (fuel : Nat)
    (he : GoodEnv env rank)
    (hroot : (env.find_profile root).isSome)
    (hfuel : rank root < fuel) :
    ∃ out, resolve_hierarchy env fuel root = .ok out
      ∧ out ≠ []
      ∧ (out.getLast?).map TunedProfile.name = some root
      ∧ (chainNames out).Nodup
      ∧ orderedChain out
      ∧ (∀ i j : Fin out.length,
          Relation.TransGen
            (fun a b : Fin out.length => (out.get a).name ∈ (out.get b).includes) i j →
          i.val < j.val) := by
  obtain ⟨pr, out, hok, _, _, hst, hmem, _, hlast⟩ :=
    resolveRec_spec env rank he fuel root [] [] [] hfuel (Or.inl hroot) (by simp)
      ⟨by simp [chainNames], by simp [chainNames], orderedChain_nil⟩
  refine ⟨out, ?_, ?_, hlast (by simp), hst.nodup, hst.ordered,
    orderedChain_transGen_lt out hst.nodup hst.ordered⟩
  · simp [resolve_hierarchy, hok, Except.map]
  · intro h
    subst h
    simp [chainNames] at hmem

def envLinear : ResolverEnv :=
  { find_profile := fun n => if n = "a" ∨ n = "b" then some n else none
    directories := ["d"]
    parse_file := fun p =>
      if p = "a" then ⟨"a", [], [], [], ["b"]⟩
      else if p = "b" then ⟨"b", [], [], [], []⟩
      else mkProfile p
    parse_external := fun _ _ => none }

def rankLinear : String → Nat := fun n => if n = "a" then 1 else 0

theorem envLinear_good : GoodEnv envLinear rankLinear := by
  refine ⟨?_, ?_, ?_, ?_⟩
  · intro n fp h m hm
    simp only [envLinear] at h hm
    by_cases hn : n = "a" ∨ n = "b"
    · rw [if_pos hn] at h
      obtain rfl := Option.some.injEq _ _ ▸ h
      rcases hn with rfl | rfl
      · simp at hm
        subst hm
        decide
      · simp at hm
    · rw [if_neg hn] at h
      exact absurd h (by simp)
  · intro n fp h m hm
    simp only [envLinear] at h hm ⊢
    by_cases hn : n = "a" ∨ n = "b"
    · rw [if_pos hn] at h
      obtain rfl := Option.some.injEq _ _ ▸ h
      rcases hn with rfl | rfl
      · simp at hm
        subst hm
        simp
      · simp at hm
    · rw [if_neg hn] at h
      exact absurd h (by simp)
  · intro n fp h
    simp only [envLinear] at h ⊢
    by_cases hn : n = "a" ∨ n = "b"
    · rw [if_pos hn] at h
      obtain rfl := Option.some.injEq _ _ ▸ h
      rcases hn with rfl | rfl
      · simp
      · simp
    · rw [if_neg hn] at h
      exact absurd h (by simp)
  · intro n fp h m hm
    simp only [envLinear] at h hm
    by_cases hn : n = "a" ∨ n = "b"
    · rw [if_pos hn] at h
      obtain rfl := Option.some.injEq _ _ ▸ h
      rcases hn with rfl | rfl
      · simp at hm
        subst hm
        decide
      · simp at hm
    · rw [if_neg hn] at h
      exact absurd h (by simp)

/-- Witness for C1: the two-profile graph `a` includes `b` resolves to a
chain with the stated properties. -/
theorem resolve_hierarchy_topological_witness :
    (envLinear.find_profile "a").isSome ∧ rankLinear "a" < 2
    ∧ ∃ out, resolve_hierarchy envLinear 2 "a" = .ok out
      ∧ out ≠ []
      ∧ (out.getLast?).map TunedProfile.name = some "a"
      ∧ (chainNames out).Nodup
      ∧ orderedChain out
      ∧ (∀ i j : Fin out.length,
          Relation.TransGen
            (fun a b : Fin out.length => (out.get a).name ∈ (out.get b).includes) i j →
          i.val < j.val) :=
  ⟨by decide, by decide,
    resolve_hierarchy_topological envLinear rankLinear "a" 2 envLinear_good
      (by decide) (by decide)⟩

end TunedViewer
